import Mathlib

/-!
Verification of the UNKNOWN-Number-Station acoustic modem (`src/anon_num.py`).

The file shallowly embeds the Python source: bit strings become `List Bool`
(with `true` standing for the character one and `false` for zero), byte
sequences become `List ℕ` with values below 256, NumPy float arrays become
`List ℝ`, and the int16 sample buffer becomes `List ℤ`.  Python operations
that can raise (`np.concatenate` of an empty list, integer division by zero)
are modelled with `Option`; the distinct decode error messages printed by
`main` are modelled with an `Except` over an error enumeration.
-/

namespace AnonNum

/-- `SAMPLE_RATE` constant of the source. -/
def SAMPLE_RATE : ℕ := 19000

/-- `CARRIER_FREQS` constant of the source. -/
def CARRIER_FREQS : List ℕ := [1000, 2000, 3000, 4000, 5000, 6000]

/-- `SYMBOL_RATE` constant of the source. -/
def SYMBOL_RATE : ℕ := 50

/-- `samples_per_symbol = int(SAMPLE_RATE / SYMBOL_RATE)` in `encode_rdft`. -/
def samplesPerSymbol : ℕ := SAMPLE_RATE / SYMBOL_RATE

/-- Value of a most-significant-bit-first bit string, i.e. Python `int(s, 2)`
for a string of binary digits. -/
def bitsToNat (l : List Bool) : ℕ :=
  l.foldl (fun a b => 2 * a + cond b 1 0) 0

/-- `binary_to_bytes`: split the bit string into chunks of 8 (the final chunk
may be shorter) and convert each chunk via `int(chunk, 2)`. -/
def binary_to_bytes (l : List Bool) : List ℕ :=
  if h : l = [] then []
  else bitsToNat (l.take 8) :: binary_to_bytes (l.drop 8)
termination_by l.length
decreasing_by
  simp only [List.length_drop]
  have : 0 < l.length := List.length_pos.mpr h
  omega

/-- Little-endian binary digits of a natural number (no digits for zero);
helper for modelling Python `format(n, 'b')`. -/
def natBitsLE : ℕ → List Bool
  | 0 => []
  | n + 1 => decide ((n + 1) % 2 = 1) :: natBitsLE ((n + 1) / 2)
termination_by n => n
decreasing_by
  exact Nat.div_lt_self (Nat.succ_pos n) (by norm_num)

/-- Python `format(n, 'b')`: minimal binary representation, most significant
bit first, with `0` rendered as the single digit zero. -/
def natToBinStr (n : ℕ) : List Bool :=
  if n = 0 then [false] else (natBitsLE n).reverse

/-- Python `format(n, '032b')`: the binary representation left-padded with
zeros to at least 32 characters. -/
def format032b (n : ℕ) : List Bool :=
  List.replicate (32 - (natToBinStr n).length) false ++ natToBinStr n

/-- Python `format(byte, '08b')` for a byte value: 8 binary digits, most
significant bit first. -/
def natToBits8 (n : ℕ) : List Bool :=
  List.replicate (8 - (natToBinStr n).length) false ++ natToBinStr n

/-- `file_to_binary` (after the file read): each byte of the payload expands
to its `'08b'` rendering, concatenated in order. -/
def file_to_binary (bytes : List ℕ) : List Bool :=
  (bytes.map natToBits8).flatten

/-- The two decode-side error messages printed by `main` / `browse_wav`. -/
inductive FrameError
  | truncatedHeader
  | unalignedPayload
deriving DecidableEq, Repr

/-- The slice `decoded_binary[32:32+payload_length]` taken by `main`, where
`payload_length` is the value of the 32-bit header. -/
def framePayload (decoded : List Bool) : List Bool :=
  (decoded.drop 32).take (bitsToNat (decoded.take 32))

/-- The decode-side frame handling of `main`: reject fewer than 32 bits,
read the 32-bit header, slice the payload, reject a declared length that is
not a multiple of 8, and otherwise reassemble bytes. -/
def decodeFrame (decoded : List Bool) : Except FrameError (List ℕ) :=
  if decoded.length < 32 then .error .truncatedHeader
  else if bitsToNat (decoded.take 32) % 8 ≠ 0 then .error .unalignedPayload
  else .ok (binary_to_bytes (framePayload decoded))

/-- One point of the reference waveform: with `spp` samples per symbol,
`t_symbol = np.linspace(0, 1/SYMBOL_RATE, spp, endpoint=False)` has
`t_k = k / (SYMBOL_RATE * spp)`, and the wave is `sin(2π f t_k)`. -/
noncomputable def refWave (spp f k : ℕ) : ℝ :=
  Real.sin (2 * Real.pi * f * (k / (SYMBOL_RATE * spp)))

/-- Carrier selected for symbol index `i`:
`CARRIER_FREQS[i % len(CARRIER_FREQS)]`. -/
def carrierAt (i : ℕ) : ℕ :=
  CARRIER_FREQS.getD (i % CARRIER_FREQS.length) 0

/-- Sign factor of the phase keying: a one keeps the sine, a zero inverts it. -/
def bitSign (b : Bool) : ℝ :=
  if b then 1 else -1

/-- The waveform of one symbol in `encode_rdft`: the precomputed sine at the
cyclically selected carrier, negated when the bit is zero. -/
noncomputable def symbolWave (b : Bool) (i : ℕ) : List ℝ :=
  (List.range samplesPerSymbol).map fun k =>
    if b then refWave samplesPerSymbol (carrierAt i) k
    else -refWave samplesPerSymbol (carrierAt i) k

/-- `np.concatenate(symbols)` over `enumerate(binary_data)` in `encode_rdft`. -/
noncomputable def rawSignal (bits : List Bool) : List ℝ :=
  (bits.enum.map fun p => symbolWave p.2 p.1).flatten

/-- `np.max(np.abs(signal))` (with 0 as the value on an empty list; the
source never evaluates it on an empty signal). -/
noncomputable def peak (l : List ℝ) : ℝ :=
  (l.map fun x => |x|).foldr max 0

/-- Truncation toward zero, the float-to-integer conversion semantics of the
NumPy int cast. -/
noncomputable def truncZ (x : ℝ) : ℤ :=
  if 0 ≤ x then ⌊x⌋ else -⌊-x⌋

/-- Reduction of an integer into the 16-bit signed range, the wrap-around
semantics of `np.int16`. -/
def wrap16 (z : ℤ) : ℤ :=
  (z + 32768) % 65536 - 32768

/-- The sample buffer built by `encode_rdft` for a non-empty bit string:
normalize by the global peak unless it is zero, scale by 32767, and cast to
int16. -/
noncomputable def encodeSamples (bits : List Bool) : List ℤ :=
  (if peak (rawSignal bits) = 0 then rawSignal bits
   else (rawSignal bits).map fun x => x / peak (rawSignal bits)).map
    fun x => wrap16 (truncZ (x * 32767))

/-- `encode_rdft`: on an empty bit string `np.concatenate` raises
(`need at least one array to concatenate`), modelled as `none`. -/
noncomputable def encode_rdft (bits : List Bool) : Option (List ℤ) :=
  if bits = [] then none else some (encodeSamples bits)

/-- The reference waveform recomputed by `decode_rdft` for symbol `i` from
the sample rate found in the WAV file. -/
noncomputable def expectedWave (rate i k : ℕ) : ℝ :=
  refWave (rate / SYMBOL_RATE) (carrierAt i) k

/-- `np.dot(segment, expected_wave)` for symbol `i` in `decode_rdft`. -/
noncomputable def correlation (rate : ℕ) (data : List ℤ) (i : ℕ) : ℝ :=
  ∑ k ∈ Finset.range (rate / SYMBOL_RATE),
    ((data.getD (i * (rate / SYMBOL_RATE) + k) 0 : ℤ) : ℝ) * expectedWave rate i k

/-- `decode_rdft` (after the WAV read): recompute `samples_per_symbol` from
the actual rate — when the rate is below `SYMBOL_RATE` this is zero and
`len(data) // samples_per_symbol` raises `ZeroDivisionError`, modelled as
`none` — then emit one bit per full symbol by thresholding the correlation
at zero. -/
noncomputable def decode_rdft (rate : ℕ) (data : List ℤ) : Option (List Bool) :=
  if rate / SYMBOL_RATE = 0 then none
  else some ((List.range (data.length / (rate / SYMBOL_RATE))).map fun i =>
    if 0 ≤ correlation rate data i then true else false)

/-- The encode path of `main`: expand the file bytes to bits, prepend the
`format(len, '032b')` header, and modulate. -/
noncomputable def encodePipeline (B : List ℕ) : Option (List ℤ) :=
  encode_rdft (format032b (file_to_binary B).length ++ file_to_binary B)

/-- The decode path of `main`: demodulate, then parse the frame, dropping
the distinction between the two error messages. -/
noncomputable def decodePipeline (rate : ℕ) (data : List ℤ) : Option (List ℕ) :=
  (decode_rdft rate data).bind fun decoded => (decodeFrame decoded).toOption

/-- Whole-system round trip at the nominal sample rate. -/
noncomputable def roundTrip (B : List ℕ) : Option (List ℕ) :=
  (encodePipeline B).bind (decodePipeline SAMPLE_RATE)

/-! ### Bit-string arithmetic -/

lemma bitsToNat_foldl (l : List Bool) (a : ℕ) :
    l.foldl (fun a b => 2 * a + cond b 1 0) a = a * 2 ^ l.length + bitsToNat l := by
  induction l generalizing a with
  | nil => simp [bitsToNat]
  | cons b t ih =>
    have hb : bitsToNat (b :: t) = cond b 1 0 * 2 ^ t.length + bitsToNat t := by
      simpa [bitsToNat] using ih (cond b 1 0)
    simp only [List.foldl_cons, List.length_cons, ih, hb]
    ring

lemma bitsToNat_append (l₁ l₂ : List Bool) :
    bitsToNat (l₁ ++ l₂) = bitsToNat l₁ * 2 ^ l₂.length + bitsToNat l₂ := by
  simpa [bitsToNat, List.foldl_append] using bitsToNat_foldl l₂ (bitsToNat l₁)

lemma bitsToNat_replicate_false (m : ℕ) : bitsToNat (List.replicate m false) = 0 := by
  induction m with
  | zero => rfl
  | succ k ih =>
    rw [List.replicate_succ]
    simpa [bitsToNat] using ih

lemma bitsToNat_replicate_append (m : ℕ) (l : List Bool) :
    bitsToNat (List.replicate m false ++ l) = bitsToNat l := by
  simp [bitsToNat_append, bitsToNat_replicate_false]

/-- Value of a little-endian digit list. -/
def valLE : List Bool → ℕ
  | [] => 0
  | b :: t => cond b 1 0 + 2 * valLE t

lemma bitsToNat_reverse (l : List Bool) : bitsToNat l.reverse = valLE l := by
  induction l with
  | nil => rfl
  | cons b t ih =>
    rw [List.reverse_cons, bitsToNat_append, ih]
    cases b <;> simp [valLE, bitsToNat] <;> ring

lemma natBitsLE_succ (n : ℕ) (h : n ≠ 0) :
    natBitsLE n = decide (n % 2 = 1) :: natBitsLE (n / 2) := by
  cases n with
  | zero => exact absurd rfl h
  | succ m => rw [natBitsLE]

lemma valLE_natBitsLE (n : ℕ) : valLE (natBitsLE n) = n := by
  induction n using Nat.strong_induction_on with
  | _ n ih =>
    cases n with
    | zero => simp [natBitsLE, valLE]
    | succ m =>
      rw [natBitsLE_succ (m + 1) (Nat.succ_ne_zero m), valLE,
        ih ((m + 1) / 2) (Nat.div_lt_self (Nat.succ_pos m) (by norm_num))]
      rcases Nat.mod_two_eq_zero_or_one (m + 1) with h | h <;> simp [h] <;> omega

lemma natBitsLE_length_le (n L : ℕ) (h : n < 2 ^ L) : (natBitsLE n).length ≤ L := by
  induction L generalizing n with
  | zero =>
    interval_cases n
    simp [natBitsLE]
  | succ M ih =>
    cases n with
    | zero => simp [natBitsLE]
    | succ m =>
      rw [natBitsLE_succ (m + 1) (Nat.succ_ne_zero m)]
      have hdiv : (m + 1) / 2 < 2 ^ M := by
        have h2 : (2 : ℕ) ∣ 2 ^ (M + 1) := dvd_pow_self 2 (Nat.succ_ne_zero M)
        have := Nat.div_lt_div_of_lt_of_dvd h2 h
        have hpow : 2 ^ (M + 1) / 2 = 2 ^ M := by
          rw [Nat.pow_succ, Nat.mul_div_cancel _ (by norm_num : 0 < 2)]
        rwa [hpow] at this
      simpa using ih ((m + 1) / 2) hdiv

lemma bitsToNat_natToBinStr (n : ℕ) : bitsToNat (natToBinStr n) = n := by
  by_cases h : n = 0
  · simp [natToBinStr, h, bitsToNat]
  · rw [natToBinStr, if_neg h, bitsToNat_reverse, valLE_natBitsLE]

lemma natToBinStr_length_le (n L : ℕ) (hL : 1 ≤ L) (h : n < 2 ^ L) :
    (natToBinStr n).length ≤ L := by
  by_cases h0 : n = 0
  · simpa [natToBinStr, h0] using hL
  · rw [natToBinStr, if_neg h0, List.length_reverse]
    exact natBitsLE_length_le n L h

lemma format032b_length (n : ℕ) (h : n < 2 ^ 32) : (format032b n).length = 32 := by
  have hle : (natToBinStr n).length ≤ 32 := natToBinStr_length_le n 32 (by norm_num) h
  simp only [format032b, List.length_append, List.length_replicate]
  omega

lemma bitsToNat_format032b (n : ℕ) : bitsToNat (format032b n) = n := by
  rw [format032b, bitsToNat_replicate_append, bitsToNat_natToBinStr]

lemma natToBits8_length (n : ℕ) (h : n < 256) : (natToBits8 n).length = 8 := by
  have hle : (natToBinStr n).length ≤ 8 :=
    natToBinStr_length_le n 8 (by norm_num) (by norm_num at h ⊢; omega)
  simp only [natToBits8, List.length_append, List.length_replicate]
  omega

lemma bitsToNat_natToBits8 (n : ℕ) : bitsToNat (natToBits8 n) = n := by
  rw [natToBits8, bitsToNat_replicate_append, bitsToNat_natToBinStr]

lemma binary_to_bytes_cons (l : List Bool) (h : l ≠ []) :
    binary_to_bytes l = bitsToNat (l.take 8) :: binary_to_bytes (l.drop 8) := by
  rw [binary_to_bytes]
  simp [h]

lemma binary_to_bytes_nil : binary_to_bytes [] = [] := by
  rw [binary_to_bytes]
  simp

/-- Byte round trip: peeling one full leading byte. -/
lemma binary_to_bytes_append8 (c l : List Bool) (hc : c.length = 8) :
    binary_to_bytes (c ++ l) = bitsToNat c :: binary_to_bytes l := by
  have hne : c ++ l ≠ [] := by
    intro hcon
    have : c = [] := by
      cases c with
      | nil => rfl
      | cons x t => simp at hcon
    simp [this] at hc
  rw [binary_to_bytes_cons (c ++ l) hne]
  have h1 : (c ++ l).take 8 = c := by
    rw [← hc, List.take_left]
  have h2 : (c ++ l).drop 8 = l := by
    rw [← hc, List.drop_left]
  rw [h1, h2]

lemma binary_to_bytes_file_to_binary (B : List ℕ) (hB : ∀ b ∈ B, b < 256) :
    binary_to_bytes (file_to_binary B) = B := by
  induction B with
  | nil => simp [file_to_binary, binary_to_bytes_nil]
  | cons b t ih =>
    have hb : b < 256 := hB b (List.mem_cons_self b t)
    have ht : ∀ x ∈ t, x < 256 := fun x hx => hB x (List.mem_cons_of_mem b hx)
    have hexp : file_to_binary (b :: t) = natToBits8 b ++ file_to_binary t := by
      simp [file_to_binary]
    rw [hexp, binary_to_bytes_append8 _ _ (natToBits8_length b hb),
      bitsToNat_natToBits8, ih ht]

lemma file_to_binary_length (B : List ℕ) (hB : ∀ b ∈ B, b < 256) :
    (file_to_binary B).length = 8 * B.length := by
  induction B with
  | nil => simp [file_to_binary]
  | cons b t ih =>
    have hb : b < 256 := hB b (List.mem_cons_self b t)
    have ht : ∀ x ∈ t, x < 256 := fun x hx => hB x (List.mem_cons_of_mem b hx)
    have hexp : file_to_binary (b :: t) = natToBits8 b ++ file_to_binary t := by
      simp [file_to_binary]
    rw [hexp]
    simp [natToBits8_length b hb, ih ht]
    ring

lemma binary_to_bytes_length (l : List Bool) :
    (binary_to_bytes l).length = (l.length + 7) / 8 := by
  generalize hn : l.length = n
  induction n using Nat.strong_induction_on generalizing l with
  | _ n ih =>
    by_cases h : l = []
    · subst h
      simp [binary_to_bytes_nil] at hn ⊢
      omega
    · have hpos : 0 < l.length := List.length_pos.mpr h
      rw [binary_to_bytes_cons l h]
      have hdrop : (l.drop 8).length = l.length - 8 := List.length_drop 8 l
      have hlt : l.length - 8 < n := by omega
      rw [List.length_cons, ih (l.length - 8) hlt (l.drop 8) hdrop]
      omega

/-- A trailing group of fewer than 8 bits becomes one final byte holding the
value of those bits. -/
lemma binary_to_bytes_trailing (l : List Bool) (h : l.length % 8 ≠ 0) :
    binary_to_bytes l =
      binary_to_bytes (l.take (8 * (l.length / 8))) ++
        [bitsToNat (l.drop (8 * (l.length / 8)))] := by
  generalize hn : l.length = n
  induction n using Nat.strong_induction_on generalizing l with
  | _ n ih =>
    subst hn
    by_cases hle : l.length < 8
    · have hq : l.length / 8 = 0 := Nat.div_eq_of_lt hle
      have hne : l ≠ [] := by
        intro hcon
        rw [hcon] at h
        simp at h
      rw [binary_to_bytes_cons l hne]
      have htake : l.take 8 = l := List.take_of_length_le (by omega)
      have hdrop8 : l.drop 8 = [] := List.drop_eq_nil_of_le (by omega)
      simp [hq, htake, hdrop8, binary_to_bytes_nil]
    · push_neg at hle
      have hne : l ≠ [] := by
        intro hcon
        rw [hcon] at hle
        simp at hle
      rw [binary_to_bytes_cons l hne]
      have h8le : 8 * (l.length / 8) ≤ l.length := by
        have := Nat.div_mul_le_self l.length 8
        omega
      have hlen8 : (l.take (8 * (l.length / 8))).length = 8 * (l.length / 8) := by
        rw [List.length_take]
        omega
      have hq1 : 1 ≤ l.length / 8 :=
        (Nat.one_le_div_iff (by norm_num)).mpr hle
      have htne : l.take (8 * (l.length / 8)) ≠ [] := by
        intro hcon
        have := congrArg List.length hcon
        rw [hlen8] at this
        simp at this
        omega
      rw [binary_to_bytes_cons _ htne]
      have htt : (l.take (8 * (l.length / 8))).take 8 = l.take 8 := by
        rw [List.take_take]
        congr 1
        omega
      have hdd : (l.drop 8).length = l.length - 8 := List.length_drop 8 l
      have hmod : (l.drop 8).length % 8 ≠ 0 := by
        rw [hdd]
        omega
      have hih := ih (l.length - 8) (by omega) (l.drop 8) hmod (by rw [hdd])
      have hqd : (l.length - 8) / 8 = l.length / 8 - 1 := by omega
      have htd : (l.take (8 * (l.length / 8))).drop 8 =
          (l.drop 8).take (8 * ((l.drop 8).length / 8)) := by
        rw [List.drop_take, hdd, hqd]
        congr 1
        omega
      have hdq : l.drop (8 * (l.length / 8)) =
          (l.drop 8).drop (8 * ((l.drop 8).length / 8)) := by
        rw [List.drop_drop, hdd, hqd]
        congr 1
        omega
      rw [htt, htd, hdq, hih]
      simp

/-! ### Carrier cycling -/

lemma carrierAt_add_length (i : ℕ) :
    carrierAt (i + CARRIER_FREQS.length) = carrierAt i := by
  unfold carrierAt
  rw [Nat.add_mod_right]

lemma symbolWave_add_length (b : Bool) (i : ℕ) :
    symbolWave b (i + CARRIER_FREQS.length) = symbolWave b i := by
  unfold symbolWave
  rw [carrierAt_add_length]

lemma expectedWave_add_length (rate i k : ℕ) :
    expectedWave rate (i + CARRIER_FREQS.length) k = expectedWave rate i k := by
  unfold expectedWave
  rw [carrierAt_add_length]

/-! ### Claim theorems on framing and bit packing -/

/-- C3: frame parsing is lenient on over-declared lengths: when the 32-bit
header value `L` satisfies `32 + L > len(framedBits)`, the payload slice is
truncated to the available bits, and this condition raises no error (the
only remaining failure is the separate multiple-of-8 check). -/
theorem C3_lenient_overdeclared_length (decoded : List Bool)
    (h32 : 32 ≤ decoded.length)
    (hover : decoded.length < 32 + bitsToNat (decoded.take 32)) :
    framePayload decoded = decoded.drop 32 ∧
      (bitsToNat (decoded.take 32) % 8 = 0 →
        decodeFrame decoded = .ok (binary_to_bytes (decoded.drop 32))) := by
  have hpay : framePayload decoded = decoded.drop 32 := by
    unfold framePayload
    apply List.take_of_length_le
    rw [List.length_drop]
    omega
  refine ⟨hpay, fun hmod => ?_⟩
  unfold decodeFrame
  rw [if_neg (by omega), if_neg (by simpa using hmod), hpay]

theorem C3_witness :
    32 ≤ (List.replicate 28 false ++ [true, false, false, false]).length ∧
      (List.replicate 28 false ++ [true, false, false, false]).length <
        32 + bitsToNat ((List.replicate 28 false ++ [true, false, false, false]).take 32) ∧
      (framePayload (List.replicate 28 false ++ [true, false, false, false]) =
          (List.replicate 28 false ++ [true, false, false, false]).drop 32 ∧
        (bitsToNat ((List.replicate 28 false ++ [true, false, false, false]).take 32) % 8 = 0 →
          decodeFrame (List.replicate 28 false ++ [true, false, false, false]) =
            .ok (binary_to_bytes
              ((List.replicate 28 false ++ [true, false, false, false]).drop 32)))) :=
  ⟨by decide, by decide,
    C3_lenient_overdeclared_length _ (by decide) (by decide)⟩

/-- C4: BitPacker round trip: expanding each byte to 8 bits MSB-first and
reassembling groups of 8 bits MSB-first reproduces the byte sequence. -/
theorem C4_bitpacker_roundtrip (B : List ℕ) (hB : ∀ b ∈ B, b < 256) :
    binary_to_bytes (file_to_binary B) = B :=
  binary_to_bytes_file_to_binary B hB

theorem C4_witness :
    (∀ b ∈ ([65, 255, 0] : List ℕ), b < 256) ∧
      binary_to_bytes (file_to_binary [65, 255, 0]) = [65, 255, 0] :=
  ⟨by decide, C4_bitpacker_roundtrip [65, 255, 0] (by decide)⟩

/-- C6: carrier cycling is bit-index based modulo the carrier-table length,
in the modulator (`symbolWave`) and the demodulator (`expectedWave`) alike;
in particular the carrier of symbol `len(CARRIER_FREQS)` equals the carrier
of symbol 0. -/
theorem C6_carrier_cycling :
    (∀ i, carrierAt i = CARRIER_FREQS.getD (i % CARRIER_FREQS.length) 0) ∧
      (∀ b i, symbolWave b (i + CARRIER_FREQS.length) = symbolWave b i) ∧
      (∀ rate i k, expectedWave rate (i + CARRIER_FREQS.length) k = expectedWave rate i k) ∧
      carrierAt CARRIER_FREQS.length = carrierAt 0 :=
  ⟨fun _ => rfl, symbolWave_add_length, expectedWave_add_length, by
    simpa using carrierAt_add_length 0⟩

/-- C7: a decoded bit string shorter than 32 bits fails frame parsing with
the truncated-header error and yields no output bytes. -/
theorem C7_truncated_header (decoded : List Bool) (h : decoded.length < 32) :
    decodeFrame decoded = .error .truncatedHeader := by
  unfold decodeFrame
  rw [if_pos h]

theorem C7_witness :
    ([] : List Bool).length < 32 ∧
      decodeFrame [] = .error .truncatedHeader :=
  ⟨by decide, C7_truncated_header [] (by decide)⟩

/-- C10: bit-to-byte reassembly is total: every bit string yields
`⌈len/8⌉` bytes, and a trailing group of fewer than 8 bits is silently
packed as one byte holding the value of those bits. -/
theorem C10_trailing_bits_packed (l : List Bool) :
    (binary_to_bytes l).length = (l.length + 7) / 8 ∧
      (l.length % 8 ≠ 0 →
        binary_to_bytes l =
          binary_to_bytes (l.take (8 * (l.length / 8))) ++
            [bitsToNat (l.drop (8 * (l.length / 8)))]) :=
  ⟨binary_to_bytes_length l, binary_to_bytes_trailing l⟩

theorem C10_witness :
    (binary_to_bytes [true, true, true]).length = 1 ∧
      binary_to_bytes [true, true, true] =
        binary_to_bytes [] ++ [bitsToNat [true, true, true]] :=
  ⟨by simpa using (C10_trailing_bits_packed [true, true, true]).1,
    by simpa using (C10_trailing_bits_packed [true, true, true]).2 (by decide)⟩

/-! ### The raw modulated signal -/

/-- Recursive view of the enumerate-and-concatenate loop of `encode_rdft`,
carrying the index of the first remaining bit. -/
noncomputable def rawSignalFrom (i₀ : ℕ) : List Bool → List ℝ
  | [] => []
  | b :: bs => symbolWave b i₀ ++ rawSignalFrom (i₀ + 1) bs

lemma rawSignalFrom_eq_enumFrom (bits : List Bool) (i₀ : ℕ) :
    ((List.enumFrom i₀ bits).map fun p => symbolWave p.2 p.1).flatten =
      rawSignalFrom i₀ bits := by
  induction bits generalizing i₀ with
  | nil => rfl
  | cons b bs ih =>
    rw [List.enumFrom_cons, List.map_cons, List.flatten_cons, ih (i₀ + 1), rawSignalFrom]

lemma rawSignal_eq (bits : List Bool) : rawSignal bits = rawSignalFrom 0 bits := by
  unfold rawSignal
  rw [show bits.enum = List.enumFrom 0 bits from rfl, rawSignalFrom_eq_enumFrom]

lemma symbolWave_length (b : Bool) (i : ℕ) :
    (symbolWave b i).length = samplesPerSymbol := by
  simp [symbolWave]

lemma rawSignalFrom_length (bits : List Bool) (i₀ : ℕ) :
    (rawSignalFrom i₀ bits).length = bits.length * samplesPerSymbol := by
  induction bits generalizing i₀ with
  | nil => simp [rawSignalFrom]
  | cons b bs ih =>
    rw [rawSignalFrom, List.length_append, symbolWave_length, ih (i₀ + 1)]
    simp [List.length_cons]
    ring

lemma getD_map_lt {α β : Type} (l : List α) (f : α → β) (n : ℕ) (d : β) (d' : α)
    (h : n < l.length) : (l.map f).getD n d = f (l.getD n d') := by
  rw [List.getD_eq_getElem (l.map f) d (by simpa using h),
    List.getD_eq_getElem l d' h, List.getElem_map]

lemma getD_mem {α : Type} (l : List α) (n : ℕ) (d : α) (h : n < l.length) :
    l.getD n d ∈ l := by
  rw [List.getD_eq_getElem l d h]
  exact List.getElem_mem h

lemma symbolWave_getD (b : Bool) (i k : ℕ) (hk : k < samplesPerSymbol) :
    (symbolWave b i).getD k 0 =
      bitSign b * refWave samplesPerSymbol (carrierAt i) k := by
  unfold symbolWave
  rw [getD_map_lt (List.range samplesPerSymbol) _ k 0 0 (by simpa using hk),
    List.getD_eq_getElem _ _ (by simpa using hk), List.getElem_range]
  cases b <;> simp [bitSign]

lemma rawSignalFrom_getD (bits : List Bool) (i₀ i k : ℕ)
    (hi : i < bits.length) (hk : k < samplesPerSymbol) :
    (rawSignalFrom i₀ bits).getD (i * samplesPerSymbol + k) 0 =
      bitSign (bits.getD i false) * refWave samplesPerSymbol (carrierAt (i₀ + i)) k := by
  induction bits generalizing i₀ i with
  | nil => simp at hi
  | cons b bs ih =>
    cases i with
    | zero =>
      rw [rawSignalFrom, List.getD_append _ _ _ _ (by rw [symbolWave_length]; simpa using hk)]
      simpa using symbolWave_getD b i₀ k hk
    | succ j =>
      rw [rawSignalFrom, List.getD_append_right _ _ _ _ (by rw [symbolWave_length]; nlinarith)]
      have hidx : (j + 1) * samplesPerSymbol + k - (symbolWave b i₀).length =
          j * samplesPerSymbol + k := by
        rw [symbolWave_length]
        ring_nf
        omega
      rw [hidx, ih (i₀ + 1) j (by simpa using hi)]
      have : i₀ + 1 + j = i₀ + (j + 1) := by ring
      rw [this]
      simp

lemma symbolWave_map_abs (b : Bool) (i : ℕ) :
    (symbolWave b i).map (fun x => |x|) =
      (List.range samplesPerSymbol).map
        (fun k => |refWave samplesPerSymbol (carrierAt i) k|) := by
  cases b <;> simp [symbolWave, Function.comp_def, abs_neg]

lemma rawSignalFrom_map_abs (bits₁ bits₂ : List Bool) (i₀ : ℕ)
    (h : bits₁.length = bits₂.length) :
    (rawSignalFrom i₀ bits₁).map (fun x => |x|) =
      (rawSignalFrom i₀ bits₂).map (fun x => |x|) := by
  induction bits₁ generalizing bits₂ i₀ with
  | nil =>
    cases bits₂ with
    | nil => rfl
    | cons c t => simp at h
  | cons b bs ih =>
    cases bits₂ with
    | nil => simp at h
    | cons c t =>
      rw [rawSignalFrom, rawSignalFrom, List.map_append, List.map_append,
        symbolWave_map_abs, symbolWave_map_abs, ih t (i₀ + 1) (by simpa using h)]

/-! ### Peak normalization -/

lemma peak_cons (a : ℝ) (l : List ℝ) : peak (a :: l) = max |a| (peak l) := rfl

lemma peak_nonneg (l : List ℝ) : 0 ≤ peak l := by
  induction l with
  | nil => simp [peak]
  | cons a t ih =>
    rw [peak_cons]
    exact le_max_of_le_right ih

lemma abs_le_peak (l : List ℝ) (x : ℝ) (hx : x ∈ l) : |x| ≤ peak l := by
  induction l with
  | nil => simp at hx
  | cons a t ih =>
    rw [peak_cons]
    rcases List.mem_cons.mp hx with h | h
    · exact h ▸ le_max_left _ _
    · exact le_max_of_le_right (ih h)

lemma peak_le_one (l : List ℝ) (h : ∀ x ∈ l, |x| ≤ 1) : peak l ≤ 1 := by
  induction l with
  | nil => simp [peak]
  | cons a t ih =>
    rw [peak_cons]
    exact max_le (h a (List.mem_cons_self a t)) (ih fun x hx => h x (List.mem_cons_of_mem a hx))

lemma peak_congr_abs (l₁ l₂ : List ℝ)
    (h : l₁.map (fun x => |x|) = l₂.map (fun x => |x|)) : peak l₁ = peak l₂ := by
  unfold peak
  rw [h]

lemma rawSignal_abs_le_one (bits : List Bool) (i₀ : ℕ) :
    ∀ x ∈ rawSignalFrom i₀ bits, |x| ≤ 1 := by
  induction bits generalizing i₀ with
  | nil => simp [rawSignalFrom]
  | cons b bs ih =>
    intro x hx
    rw [rawSignalFrom, List.mem_append] at hx
    rcases hx with h | h
    · unfold symbolWave at h
      rcases List.mem_map.mp h with ⟨k, _, hk⟩
      cases b <;> rw [← hk] <;> simp [refWave, abs_neg] <;>
        exact Real.abs_sin_le_one _
    · exact ih (i₀ + 1) x h

/-! ### Truncation toward zero and int16 wrap-around -/

lemma truncZ_neg (x : ℝ) : truncZ (-x) = -truncZ x := by
  unfold truncZ
  by_cases h : 0 ≤ x
  · by_cases h' : 0 ≤ -x
    · have hx : x = 0 := le_antisymm (by linarith) h
      simp [hx]
    · rw [if_neg h', if_pos h]
      simp
  · rw [if_pos (by linarith), if_neg h]
    simp

lemma truncZ_nonneg (x : ℝ) (h : 0 ≤ x) : 0 ≤ truncZ x := by
  unfold truncZ
  rw [if_pos h]
  exact Int.floor_nonneg.mpr h

lemma truncZ_nonpos (x : ℝ) (h : x ≤ 0) : truncZ x ≤ 0 := by
  by_cases h0 : 0 ≤ x
  · have hx : x = 0 := le_antisymm h h0
    simp [hx, truncZ]
  · unfold truncZ
    rw [if_neg h0]
    simp
    exact Int.floor_nonneg.mpr (by linarith)

lemma truncZ_le (x : ℝ) (B : ℕ) (h : |x| ≤ B) : truncZ x ≤ B := by
  unfold truncZ
  by_cases h0 : 0 ≤ x
  · rw [if_pos h0]
    have : (B : ℤ) = ⌊(B : ℝ)⌋ := by simp
    rw [this]
    exact Int.floor_le_floor ((abs_le.mp h).2)
  · rw [if_neg h0]
    have : (0 : ℤ) ≤ ⌊-x⌋ := Int.floor_nonneg.mpr (by linarith)
    omega

lemma neg_le_truncZ (x : ℝ) (B : ℕ) (h : |x| ≤ B) : -(B : ℤ) ≤ truncZ x := by
  have := truncZ_le (-x) B (by simpa [abs_neg] using h)
  rw [truncZ_neg] at this
  omega

lemma truncZ_one_le (x : ℝ) (h : 1 ≤ x) : 1 ≤ truncZ x := by
  unfold truncZ
  rw [if_pos (by linarith)]
  exact Int.le_floor.mpr (by exact_mod_cast h)

lemma wrap16_eq_self (z : ℤ) (h₁ : -32768 ≤ z) (h₂ : z ≤ 32767) : wrap16 z = z := by
  unfold wrap16
  rw [Int.emod_eq_of_lt (by omega) (by omega)]
  omega

/-! ### The reference sine at the sample points -/

lemma samplesPerSymbol_eq : samplesPerSymbol = 380 := rfl

lemma two_pi_div_19_pos : 0 < 2 * Real.pi / 19 := by
  have := Real.pi_pos
  linarith

lemma two_pi_div_19_lt_pi : 2 * Real.pi / 19 < Real.pi := by
  have := Real.pi_pos
  linarith

lemma sigma_pos : 0 < Real.sin (2 * Real.pi / 19) :=
  Real.sin_pos_of_pos_of_lt_pi two_pi_div_19_pos two_pi_div_19_lt_pi

lemma sigma_ge : 1 / 32767 ≤ Real.sin (2 * Real.pi / 19) := by
  have hgt := Real.pi_gt_d2
  have hlt := Real.pi_lt_d2
  have hx1 : 2 * Real.pi / 19 ≤ 1 := by nlinarith
  have hcube := Real.sin_gt_sub_cube two_pi_div_19_pos hx1
  have hxl : (0.33 : ℝ) ≤ 2 * Real.pi / 19 := by nlinarith
  have hxu : 2 * Real.pi / 19 ≤ (0.3316 : ℝ) := by nlinarith
  nlinarith [pow_le_pow_left₀ (by linarith : (0:ℝ) ≤ 2 * Real.pi / 19) hxu 3]

/-- For every carrier in the table, some sample point of the symbol-long
reference wave takes the value `sin(2π/19)`. -/
lemma exists_good_sample (c : ℕ) (hc : c ∈ CARRIER_FREQS) :
    ∃ k, k < samplesPerSymbol ∧
      refWave samplesPerSymbol c k = Real.sin (2 * Real.pi / 19) := by
  have shift : ∀ (f k : ℕ) (n : ℤ),
      ((f : ℝ)) * k / ((SYMBOL_RATE : ℕ) * (samplesPerSymbol : ℕ)) = 1 / 19 + n →
      refWave samplesPerSymbol f k = Real.sin (2 * Real.pi / 19) := by
    intro f k n h
    unfold refWave
    have harg : 2 * Real.pi * f * ((k : ℝ) / ((SYMBOL_RATE : ℕ) * (samplesPerSymbol : ℕ))) =
        2 * Real.pi / 19 + n * (2 * Real.pi) := by
      have h2 : 2 * Real.pi * f * ((k : ℝ) / ((SYMBOL_RATE : ℕ) * (samplesPerSymbol : ℕ))) =
          2 * Real.pi * ((f : ℝ) * k / ((SYMBOL_RATE : ℕ) * (samplesPerSymbol : ℕ))) := by
        ring
      rw [h2, h]
      ring
    rw [harg, Real.sin_add_int_mul_two_pi]
  fin_cases hc
  · exact ⟨1, by norm_num [samplesPerSymbol_eq],
      shift 1000 1 0 (by norm_num [SYMBOL_RATE, samplesPerSymbol_eq])⟩
  · exact ⟨10, by norm_num [samplesPerSymbol_eq],
      shift 2000 10 1 (by norm_num [SYMBOL_RATE, samplesPerSymbol_eq])⟩
  · exact ⟨13, by norm_num [samplesPerSymbol_eq],
      shift 3000 13 2 (by norm_num [SYMBOL_RATE, samplesPerSymbol_eq])⟩
  · exact ⟨5, by norm_num [samplesPerSymbol_eq],
      shift 4000 5 1 (by norm_num [SYMBOL_RATE, samplesPerSymbol_eq])⟩
  · exact ⟨4, by norm_num [samplesPerSymbol_eq],
      shift 5000 4 1 (by norm_num [SYMBOL_RATE, samplesPerSymbol_eq])⟩
  · exact ⟨16, by norm_num [samplesPerSymbol_eq],
      shift 6000 16 5 (by norm_num [SYMBOL_RATE, samplesPerSymbol_eq])⟩

lemma carrierAt_mem (i : ℕ) : carrierAt i ∈ CARRIER_FREQS := by
  unfold carrierAt
  have hlt : i % CARRIER_FREQS.length < CARRIER_FREQS.length :=
    Nat.mod_lt i (by simp [CARRIER_FREQS])
  rw [List.getD_eq_getElem _ _ hlt]
  exact List.getElem_mem hlt

/-! ### The matched-filter correlation of a clean symbol -/

/-- Correlation of the quantized positive-polarity symbol against its own
reference wave, for normalization peak `p`. -/
noncomputable def corrSum (c : ℕ) (p : ℝ) : ℝ :=
  ∑ k ∈ Finset.range samplesPerSymbol,
    ((truncZ (refWave samplesPerSymbol c k / p * 32767) : ℤ) : ℝ) *
      refWave samplesPerSymbol c k

lemma corrSum_term_nonneg (c : ℕ) (p : ℝ) (hp : 0 < p) (k : ℕ) :
    0 ≤ ((truncZ (refWave samplesPerSymbol c k / p * 32767) : ℤ) : ℝ) *
      refWave samplesPerSymbol c k := by
  set g := refWave samplesPerSymbol c k with hg
  rcases le_or_lt 0 g with h | h
  · have harg : 0 ≤ g / p * 32767 := by positivity
    have := truncZ_nonneg _ harg
    have hcast : (0 : ℝ) ≤ ((truncZ (g / p * 32767) : ℤ) : ℝ) := by exact_mod_cast this
    exact mul_nonneg hcast h
  · have harg : g / p * 32767 ≤ 0 := by
      apply mul_nonpos_of_nonpos_of_nonneg
      · exact le_of_lt (div_neg_of_neg_of_pos h hp)
      · norm_num
    have := truncZ_nonpos _ harg
    have hcast : ((truncZ (g / p * 32767) : ℤ) : ℝ) ≤ 0 := by exact_mod_cast this
    nlinarith

lemma corrSum_pos (c : ℕ) (hc : c ∈ CARRIER_FREQS) (p : ℝ) (hp : 0 < p)
    (hp1 : p ≤ 1) : 0 < corrSum c p := by
  obtain ⟨k₀, hk₀, hval⟩ := exists_good_sample c hc
  apply Finset.sum_pos'
  · exact fun k _ => corrSum_term_nonneg c p hp k
  · refine ⟨k₀, Finset.mem_range.mpr hk₀, ?_⟩
    rw [hval]
    have hσ := sigma_pos
    have hσge := sigma_ge
    have harg : 1 ≤ Real.sin (2 * Real.pi / 19) / p * 32767 := by
      have hdiv : Real.sin (2 * Real.pi / 19) ≤ Real.sin (2 * Real.pi / 19) / p := by
        rw [le_div_iff₀ hp]
        nlinarith
      nlinarith
    have h1 := truncZ_one_le _ harg
    have hcast : (1 : ℝ) ≤ ((truncZ (Real.sin (2 * Real.pi / 19) / p * 32767) : ℤ) : ℝ) := by
      exact_mod_cast h1
    nlinarith

/-! ### The sample buffer of `encode_rdft` -/

lemma rawSignal_length (bits : List Bool) :
    (rawSignal bits).length = bits.length * samplesPerSymbol := by
  rw [rawSignal_eq, rawSignalFrom_length]

lemma encodeSamples_length (bits : List Bool) :
    (encodeSamples bits).length = bits.length * samplesPerSymbol := by
  unfold encodeSamples
  by_cases h : peak (rawSignal bits) = 0 <;>
    simp [h, rawSignal_length]

lemma peak_pos (bits : List Bool) (h : bits ≠ []) : 0 < peak (rawSignal bits) := by
  cases bits with
  | nil => exact absurd rfl h
  | cons b bs =>
    have hmem : bitSign b * refWave samplesPerSymbol (carrierAt 0) 1 ∈
        rawSignal (b :: bs) := by
      rw [rawSignal_eq]
      have hlt : (1 : ℕ) < samplesPerSymbol := by rw [samplesPerSymbol_eq]; norm_num
      have := rawSignalFrom_getD (b :: bs) 0 0 1 (by simp) hlt
      simp only [Nat.zero_mul, Nat.zero_add, List.getD_cons_zero] at this
      rw [← this]
      apply getD_mem
      rw [rawSignalFrom_length, samplesPerSymbol_eq]
      simp [List.length_cons]
      omega
    have hle := abs_le_peak _ _ hmem
    have hval : refWave samplesPerSymbol (carrierAt 0) 1 = Real.sin (2 * Real.pi / 19) := by
      have : carrierAt 0 = 1000 := rfl
      rw [this]
      unfold refWave
      norm_num [SYMBOL_RATE, samplesPerSymbol_eq]
      ring_nf
    have habs : |bitSign b * refWave samplesPerSymbol (carrierAt 0) 1| =
        Real.sin (2 * Real.pi / 19) := by
      rw [hval, abs_mul]
      cases b <;>
        simp [bitSign, abs_of_pos sigma_pos]
    rw [habs] at hle
    calc (0 : ℝ) < Real.sin (2 * Real.pi / 19) := sigma_pos
      _ ≤ _ := hle

lemma peak_le_one_rawSignal (bits : List Bool) : peak (rawSignal bits) ≤ 1 := by
  apply peak_le_one
  rw [rawSignal_eq]
  exact rawSignal_abs_le_one bits 0

lemma rawSignal_getD_abs_le_peak (bits : List Bool) (j : ℕ)
    (hj : j < (rawSignal bits).length) :
    |(rawSignal bits).getD j 0| ≤ peak (rawSignal bits) :=
  abs_le_peak _ _ (getD_mem _ j 0 hj)

/-- The int16 sample at position `i * samplesPerSymbol + k` of the encoded
buffer, in closed form. -/
lemma encodeSamples_getD (bits : List Bool) (hb : bits ≠ []) (i k : ℕ)
    (hi : i < bits.length) (hk : k < samplesPerSymbol) :
    (encodeSamples bits).getD (i * samplesPerSymbol + k) 0 =
      wrap16 (truncZ (bitSign (bits.getD i false) *
        refWave samplesPerSymbol (carrierAt i) k / peak (rawSignal bits) * 32767)) := by
  have hp := peak_pos bits hb
  have hidx : i * samplesPerSymbol + k < (rawSignal bits).length := by
    rw [rawSignal_length]
    calc i * samplesPerSymbol + k < i * samplesPerSymbol + samplesPerSymbol := by omega
      _ = (i + 1) * samplesPerSymbol := by ring
      _ ≤ bits.length * samplesPerSymbol := Nat.mul_le_mul_right _ (by omega)
  unfold encodeSamples
  rw [if_neg (ne_of_gt hp)]
  rw [getD_map_lt _ _ _ 0 0 (by simpa using hidx),
    getD_map_lt _ _ _ 0 0 hidx]
  rw [show (rawSignal bits).getD (i * samplesPerSymbol + k) 0 =
      bitSign (bits.getD i false) * refWave samplesPerSymbol (carrierAt i) k from by
    rw [rawSignal_eq]
    simpa using rawSignalFrom_getD bits 0 i k hi hk]

/-! ### Demodulating a cleanly modulated buffer -/

lemma sample_rate_div : SAMPLE_RATE / SYMBOL_RATE = samplesPerSymbol := rfl

lemma refWave_abs_le_peak (bits : List Bool) (i k : ℕ)
    (hi : i < bits.length) (hk : k < samplesPerSymbol) :
    |refWave samplesPerSymbol (carrierAt i) k| ≤ peak (rawSignal bits) := by
  have hidx : i * samplesPerSymbol + k < (rawSignal bits).length := by
    rw [rawSignal_length]
    calc i * samplesPerSymbol + k < i * samplesPerSymbol + samplesPerSymbol := by omega
      _ = (i + 1) * samplesPerSymbol := by ring
      _ ≤ bits.length * samplesPerSymbol := Nat.mul_le_mul_right _ (by omega)
  have h1 := rawSignal_getD_abs_le_peak bits (i * samplesPerSymbol + k) hidx
  rw [show (rawSignal bits).getD (i * samplesPerSymbol + k) 0 =
      bitSign (bits.getD i false) * refWave samplesPerSymbol (carrierAt i) k from by
    rw [rawSignal_eq]
    simpa using rawSignalFrom_getD bits 0 i k hi hk] at h1
  rcases Bool.eq_false_or_eq_true (bits.getD i false) with hbit | hbit <;>
    rw [hbit] at h1 <;>
    · rw [abs_mul] at h1
      simpa [bitSign] using h1

lemma correlation_encode (bits : List Bool) (hb : bits ≠ []) (i : ℕ)
    (hi : i < bits.length) :
    correlation SAMPLE_RATE (encodeSamples bits) i =
      bitSign (bits.getD i false) * corrSum (carrierAt i) (peak (rawSignal bits)) := by
  have hp := peak_pos bits hb
  unfold correlation corrSum expectedWave
  rw [sample_rate_div, Finset.mul_sum]
  apply Finset.sum_congr rfl
  intro k hk
  have hkt : k < samplesPerSymbol := Finset.mem_range.mp hk
  rw [encodeSamples_getD bits hb i k hi hkt]
  set g := refWave samplesPerSymbol (carrierAt i) k with hg
  set p := peak (rawSignal bits) with hpk
  have habs : |g| ≤ p := refWave_abs_le_peak bits i k hi hkt
  have hargabs : |g / p * 32767| ≤ (32767 : ℕ) := by
    push_cast
    rw [abs_mul, abs_div, abs_of_pos hp]
    have : |g| / p ≤ 1 := (div_le_one hp).mpr habs
    rw [abs_of_nonneg (by norm_num : (0:ℝ) ≤ (32767:ℝ))]
    nlinarith [abs_nonneg g]
  have hub := truncZ_le _ _ hargabs
  have hlb := neg_le_truncZ _ _ hargabs
  rcases Bool.eq_false_or_eq_true (bits.getD i false) with hbit | hbit
  · rw [hbit]
    have harg : bitSign true * g / p * 32767 = g / p * 32767 := by
      simp [bitSign]
    rw [harg,
      wrap16_eq_self _ (by push_cast at hlb ⊢; omega) (by push_cast at hub ⊢; omega)]
    simp [bitSign]
  · rw [hbit]
    have harg : bitSign false * g / p * 32767 = -(g / p * 32767) := by
      simp [bitSign]
      ring
    rw [harg, truncZ_neg,
      wrap16_eq_self _ (by push_cast at hub ⊢; omega) (by push_cast at hlb ⊢; omega)]
    push_cast
    simp [bitSign]

/-- Noiseless per-bit round trip: demodulating the buffer produced by the
modulator at the nominal rate recovers the bit string exactly. -/
lemma decode_encode (bits : List Bool) (hb : bits ≠ []) :
    decode_rdft SAMPLE_RATE (encodeSamples bits) = some bits := by
  have hspp : (0 : ℕ) < samplesPerSymbol := by rw [samplesPerSymbol_eq]; norm_num
  unfold decode_rdft
  rw [if_neg (by rw [sample_rate_div]; omega)]
  congr 1
  apply List.ext_getElem
  · rw [List.length_map, List.length_range, encodeSamples_length, sample_rate_div,
      Nat.mul_div_cancel _ hspp]
  · intro n h1 h2
    rw [List.getElem_map, List.getElem_range]
    have hn : n < bits.length := by
      rw [List.length_map, List.length_range, encodeSamples_length, sample_rate_div,
        Nat.mul_div_cancel _ hspp] at h1
      exact h1
    rw [correlation_encode bits hb n hn]
    have hpos := corrSum_pos (carrierAt n) (carrierAt_mem n) (peak (rawSignal bits))
      (peak_pos bits hb) (peak_le_one_rawSignal bits)
    have hget : bits.getD n false = bits[n] := List.getD_eq_getElem bits false hn
    rcases Bool.eq_false_or_eq_true (bits.getD n false) with hbit | hbit
    · rw [hbit]
      rw [hbit] at hget
      rw [if_pos (by simp [bitSign]; nlinarith)]
      exact hget
    · rw [hbit]
      rw [hbit] at hget
      rw [if_neg (by simp [bitSign]; nlinarith)]
      exact hget

/-! ### Claim theorems on the modulator and demodulator -/

/-- C2 counterexample: on the empty framed bit sequence the modulator does
not return an empty buffer; `np.concatenate` of an empty list raises, so
the call fails. -/
theorem C2_counterexample : encode_rdft [] = none := by
  simp [encode_rdft]

/-- C2 (amended): for every non-empty framed bit sequence, the modulator
succeeds and returns a buffer of exactly `samplesPerSymbol` int16 samples
per input bit; the empty bit sequence instead makes the modulator fail. -/
theorem C2_modulator_output_length (bits : List Bool) (h : bits ≠ []) :
    encode_rdft bits = some (encodeSamples bits) ∧
      (encodeSamples bits).length = samplesPerSymbol * bits.length := by
  refine ⟨by simp [encode_rdft, h], ?_⟩
  rw [encodeSamples_length]
  ring

theorem C2_witness :
    ([true] : List Bool) ≠ [] ∧
      (encode_rdft [true] = some (encodeSamples [true]) ∧
        (encodeSamples [true]).length = samplesPerSymbol * ([true] : List Bool).length) :=
  ⟨by decide, C2_modulator_output_length [true] (by decide)⟩

/-- C9: every sample the modulator outputs lies in `[-32767, 32767]`;
`-32768` never occurs, because the signal is normalized by its global peak
before scaling by 32767. -/
theorem C9_samples_in_range (bits : List Bool) (h : bits ≠ []) :
    encode_rdft bits = some (encodeSamples bits) ∧
      ∀ x ∈ encodeSamples bits, -32767 ≤ x ∧ x ≤ 32767 := by
  refine ⟨by simp [encode_rdft, h], ?_⟩
  intro x hx
  unfold encodeSamples at hx
  rcases List.mem_map.mp hx with ⟨y, hy, hxy⟩
  have hyb : |y * 32767| ≤ (32767 : ℕ) := by
    by_cases hp : peak (rawSignal bits) = 0
    · rw [if_pos hp] at hy
      have h0 := abs_le_peak _ _ hy
      rw [hp] at h0
      have : y = 0 := abs_eq_zero.mp (le_antisymm h0 (abs_nonneg y))
      simp [this]
    · rw [if_neg hp] at hy
      rcases List.mem_map.mp hy with ⟨z, hz, hzy⟩
      have hzp := abs_le_peak _ _ hz
      have hppos : 0 < peak (rawSignal bits) :=
        lt_of_le_of_ne (peak_nonneg _) (Ne.symm hp)
      rw [← hzy, abs_mul, abs_div, abs_of_pos hppos]
      have hdiv : |z| / peak (rawSignal bits) ≤ 1 := (div_le_one hppos).mpr hzp
      rw [abs_of_nonneg (by norm_num : (0:ℝ) ≤ (32767:ℝ))]
      push_cast
      nlinarith [abs_nonneg z]
  have hub := truncZ_le _ _ hyb
  have hlb := neg_le_truncZ _ _ hyb
  rw [← hxy, wrap16_eq_self _ (by push_cast at hlb ⊢; omega) (by push_cast at hub ⊢; omega)]
  push_cast at hub hlb
  omega

theorem C9_witness :
    ([true] : List Bool) ≠ [] ∧
      (encode_rdft [true] = some (encodeSamples [true]) ∧
        ∀ x ∈ encodeSamples [true], -32767 ≤ x ∧ x ≤ 32767) :=
  ⟨by decide, C9_samples_in_range [true] (by decide)⟩

/-- C5: flipping a single bit from 0 to 1 negates exactly that symbol's
samples, after normalization and int16 conversion, for every bit position
(and hence every carrier assignment). -/
theorem C5_polarity (bits : List Bool) (i k : ℕ)
    (hi : i < bits.length) (hk : k < samplesPerSymbol) :
    (encodeSamples (bits.set i true)).getD (i * samplesPerSymbol + k) 0 =
      -((encodeSamples (bits.set i false)).getD (i * samplesPerSymbol + k) 0) := by
  have hlen1 : (bits.set i true).length = bits.length := List.length_set bits i true
  have hlen2 : (bits.set i false).length = bits.length := List.length_set bits i false
  have hne1 : bits.set i true ≠ [] :=
    List.ne_nil_of_length_pos (by omega)
  have hne2 : bits.set i false ≠ [] :=
    List.ne_nil_of_length_pos (by omega)
  have hpeak : peak (rawSignal (bits.set i true)) = peak (rawSignal (bits.set i false)) := by
    apply peak_congr_abs
    rw [rawSignal_eq, rawSignal_eq]
    exact rawSignalFrom_map_abs _ _ 0 (by omega)
  have hcar : carrierAt i = carrierAt i := rfl
  rw [encodeSamples_getD _ hne1 i k (by omega) hk,
    encodeSamples_getD _ hne2 i k (by omega) hk]
  have hget1 : (bits.set i true).getD i false = true := by
    rw [List.getD_eq_getElem _ _ (by omega)]
    exact List.getElem_set_self (by omega)
  have hget2 : (bits.set i false).getD i false = false := by
    rw [List.getD_eq_getElem _ _ (by omega)]
    exact List.getElem_set_self (by omega)
  rw [hget1, hget2, hpeak]
  set g := refWave samplesPerSymbol (carrierAt i) k with hg
  set p := peak (rawSignal (bits.set i false)) with hp
  have hppos : 0 < p := peak_pos _ hne2
  have habs : |g| ≤ p := by
    have := refWave_abs_le_peak (bits.set i false) i k (by omega) hk
    rw [← hp] at this
    exact this
  have hargabs : |g / p * 32767| ≤ (32767 : ℕ) := by
    push_cast
    rw [abs_mul, abs_div, abs_of_pos hppos]
    have : |g| / p ≤ 1 := (div_le_one hppos).mpr habs
    rw [abs_of_nonneg (by norm_num : (0:ℝ) ≤ (32767:ℝ))]
    nlinarith [abs_nonneg g]
  have hub := truncZ_le _ _ hargabs
  have hlb := neg_le_truncZ _ _ hargabs
  have h1 : bitSign true * g / p * 32767 = g / p * 32767 := by
    simp [bitSign]
  have h2 : bitSign false * g / p * 32767 = -(g / p * 32767) := by
    simp [bitSign]
    ring
  rw [h1, h2, truncZ_neg,
    wrap16_eq_self _ (by push_cast at hlb ⊢; omega) (by push_cast at hub ⊢; omega),
    wrap16_eq_self _ (by push_cast at hub ⊢; omega) (by push_cast at hlb ⊢; omega)]
  ring

theorem C5_witness :
    (0 : ℕ) < ([false] : List Bool).length ∧ (0 : ℕ) < samplesPerSymbol ∧
      (encodeSamples (([false] : List Bool).set 0 true)).getD (0 * samplesPerSymbol + 0) 0 =
        -((encodeSamples (([false] : List Bool).set 0 false)).getD (0 * samplesPerSymbol + 0) 0) :=
  ⟨by decide, by rw [samplesPerSymbol_eq]; norm_num,
    C5_polarity [false] 0 0 (by decide) (by rw [samplesPerSymbol_eq]; norm_num)⟩

/-- C8 counterexample: with sample rate 10 (below the symbol rate) the
integer division `len(data) // samples_per_symbol` divides by zero and the
demodulator fails instead of returning a bit sequence. -/
theorem C8_counterexample : decode_rdft 10 [] = none := by
  simp [decode_rdft, SYMBOL_RATE]

/-- C8 (amended): for every sample buffer and every sample rate of at least
`SYMBOL_RATE` (so that `samplesPerSymbol ≥ 1`), the demodulator returns
exactly `len(data) / samplesPerSymbol` bits, trailing samples discarded,
and bit `i` is 1 exactly when the correlation of segment `i` with its
reference wave is non-negative; for smaller rates the division by zero
makes the call fail. -/
theorem C8_demodulator_shape (rate : ℕ) (data : List ℤ) (hrate : SYMBOL_RATE ≤ rate) :
    ∃ l, decode_rdft rate data = some l ∧
      l.length = data.length / (rate / SYMBOL_RATE) ∧
      ∀ i, i < l.length → (l.getD i false = true ↔ 0 ≤ correlation rate data i) := by
  have hspp : 1 ≤ rate / SYMBOL_RATE :=
    (Nat.one_le_div_iff (by norm_num [SYMBOL_RATE])).mpr hrate
  refine ⟨_, by unfold decode_rdft; rw [if_neg (by omega)], by simp, ?_⟩
  intro i hi
  simp only [List.length_map, List.length_range] at hi
  rw [getD_map_lt _ _ _ false 0 (by simpa using hi),
    List.getD_eq_getElem _ _ (by simpa using hi), List.getElem_range]
  by_cases hcorr : 0 ≤ correlation rate data i
  · simp [hcorr]
  · simp [hcorr]

theorem C8_witness :
    SYMBOL_RATE ≤ 19000 ∧
      ∃ l, decode_rdft 19000 ([] : List ℤ) = some l ∧
        l.length = ([] : List ℤ).length / (19000 / SYMBOL_RATE) ∧
        ∀ i, i < l.length → (l.getD i false = true ↔ 0 ≤ correlation 19000 [] i) :=
  ⟨by norm_num [SYMBOL_RATE], C8_demodulator_shape 19000 [] (by norm_num [SYMBOL_RATE])⟩

/-! ### The whole-system round trip -/

/-- C1 (amended): whenever the payload bit count fits the 32-bit header,
the noiseless round trip through framing, modulation, demodulation and
frame parsing reproduces the byte sequence exactly. -/
theorem C1_modem_roundtrip (B : List ℕ) (hB : ∀ b ∈ B, b < 256)
    (hlen : 8 * B.length < 2 ^ 32) : roundTrip B = some B := by
  have hplen : (file_to_binary B).length = 8 * B.length := file_to_binary_length B hB
  have hhl : (format032b (file_to_binary B).length).length = 32 :=
    format032b_length _ (by omega)
  set header := format032b (file_to_binary B).length with hheader
  set bits := header ++ file_to_binary B with hbits
  have hbitlen : bits.length = 32 + 8 * B.length := by
    rw [hbits, List.length_append, hhl, hplen]
  have hne : bits ≠ [] := List.ne_nil_of_length_pos (by omega)
  have htake : bits.take 32 = header := by
    rw [hbits, ← hhl, List.take_left]
  have hdrop : bits.drop 32 = file_to_binary B := by
    rw [hbits, ← hhl, List.drop_left]
  have hL : bitsToNat (bits.take 32) = 8 * B.length := by
    rw [htake, hheader, bitsToNat_format032b, hplen]
  unfold roundTrip encodePipeline
  rw [show encode_rdft bits = some (encodeSamples bits) from by simp [encode_rdft, hne]]
  rw [Option.some_bind]
  unfold decodePipeline
  rw [decode_encode bits hne, Option.some_bind]
  unfold decodeFrame
  rw [if_neg (by omega), hL, if_neg (by simp [Nat.mul_mod_right])]
  unfold framePayload
  rw [hL, hdrop, ← hplen, List.take_length,
    binary_to_bytes_file_to_binary B hB]
  rfl

theorem C1_witness :
    (∀ b ∈ ([65] : List ℕ), b < 256) ∧ 8 * ([65] : List ℕ).length < 2 ^ 32 ∧
      roundTrip [65] = some [65] :=
  ⟨by decide, by norm_num, C1_modem_roundtrip [65] (by decide) (by norm_num)⟩

/-! Helper facts for the header-overflow counterexample: a payload of
`2 ^ 29` bytes has `2 ^ 32` bits, whose `'032b'` rendering is 33 characters
long, so the frame no longer matches its own header. -/

lemma natBitsLE_two_pow (k : ℕ) : natBitsLE (2 ^ k) = List.replicate k false ++ [true] := by
  induction k with
  | zero =>
    rw [pow_zero, natBitsLE_succ 1 one_ne_zero]
    simp [natBitsLE]
  | succ m ih =>
    have h2 : (2 : ℕ) ^ (m + 1) = 2 * 2 ^ m := by
      rw [pow_succ]
      ring
    have hpos : 1 ≤ (2 : ℕ) ^ m := Nat.one_le_two_pow
    rw [natBitsLE_succ (2 ^ (m + 1)) (by omega)]
    have hmod : (2 : ℕ) ^ (m + 1) % 2 = 0 := by omega
    have hdiv : (2 : ℕ) ^ (m + 1) / 2 = 2 ^ m := by omega
    rw [hmod, hdiv, ih]
    simp [List.replicate_succ]

lemma natBitsLE_two_pow_sub_one (k : ℕ) :
    natBitsLE (2 ^ k - 1) = List.replicate k true := by
  induction k with
  | zero => simp [natBitsLE]
  | succ m ih =>
    have h2 : (2 : ℕ) ^ (m + 1) = 2 * 2 ^ m := by
      rw [pow_succ]
      ring
    have hpos : 1 ≤ (2 : ℕ) ^ m := Nat.one_le_two_pow
    rw [natBitsLE_succ (2 ^ (m + 1) - 1) (by omega)]
    have hmod : ((2 : ℕ) ^ (m + 1) - 1) % 2 = 1 := by omega
    have hdiv : ((2 : ℕ) ^ (m + 1) - 1) / 2 = 2 ^ m - 1 := by omega
    rw [hmod, hdiv, ih]
    simp [List.replicate_succ]

lemma natToBits8_255 : natToBits8 255 = List.replicate 8 true := by
  have h : natBitsLE 255 = List.replicate 8 true := by
    have := natBitsLE_two_pow_sub_one 8
    norm_num at this
    exact this
  rw [natToBits8, natToBinStr, if_neg (by norm_num), h, List.reverse_replicate]
  simp

lemma file_to_binary_replicate_255 (n : ℕ) :
    file_to_binary (List.replicate n 255) = List.replicate (8 * n) true := by
  induction n with
  | zero => simp [file_to_binary]
  | succ m ih =>
    rw [List.replicate_succ]
    have hexp : file_to_binary (255 :: List.replicate m 255) =
        natToBits8 255 ++ file_to_binary (List.replicate m 255) := by
      simp [file_to_binary]
    rw [hexp, ih, natToBits8_255,
      show 8 * (m + 1) = 8 + 8 * m from by ring, List.replicate_add]

lemma format032b_two_pow_32 :
    format032b (2 ^ 32) = true :: List.replicate 32 false := by
  have hstr : natToBinStr (2 ^ 32) = true :: List.replicate 32 false := by
    rw [natToBinStr, if_neg (by positivity), natBitsLE_two_pow, List.reverse_append,
      List.reverse_replicate]
    rfl
  rw [format032b, hstr]
  simp

/-- C1 counterexample: for a payload of `2 ^ 29` bytes (bit count `2 ^ 32`)
the `'032b'` header is 33 bits long, the parsed header value is `2 ^ 31`,
and the round trip returns `2 ^ 28` wrong bytes instead of the input. -/
theorem C1_counterexample :
    roundTrip (List.replicate (2 ^ 29) 255) ≠ some (List.replicate (2 ^ 29) 255) := by
  have hpay : file_to_binary (List.replicate (2 ^ 29) 255) =
      List.replicate (2 ^ 32) true := by
    rw [file_to_binary_replicate_255]
    norm_num
  have hplen : (file_to_binary (List.replicate (2 ^ 29) 255)).length = 2 ^ 32 := by
    rw [hpay, List.length_replicate]
  set payload := List.replicate (2 ^ 32) (true : Bool) with hpayload
  set bits := (true :: List.replicate 32 false) ++ payload with hbits
  have hbits_eq : format032b (file_to_binary (List.replicate (2 ^ 29) 255)).length ++
      file_to_binary (List.replicate (2 ^ 29) 255) = bits := by
    rw [hplen, format032b_two_pow_32, hpay]
  have hne : bits ≠ [] := by
    rw [hbits]
    simp
  have hbitlen : bits.length = 33 + 2 ^ 32 := by
    rw [hbits, List.length_append, List.length_cons, List.length_replicate, hpayload,
      List.length_replicate]
  have hcons : bits = true :: (List.replicate 32 false ++ payload) := by
    rw [hbits]
    rfl
  have htake : bits.take 32 = true :: List.replicate 31 false := by
    rw [hcons, List.take_succ_cons,
      List.take_append_of_le_length (by rw [List.length_replicate]; omega),
      List.take_replicate]
    norm_num
  have hL : bitsToNat (bits.take 32) = 2 ^ 31 := by
    rw [htake, show (true : Bool) :: List.replicate 31 false =
        [true] ++ List.replicate 31 false from rfl,
      bitsToNat_append, bitsToNat_replicate_false, List.length_replicate]
    norm_num [bitsToNat]
  have hdrop : bits.drop 32 = false :: payload := by
    rw [hcons, List.drop_succ_cons,
      List.drop_append_of_le_length (by rw [List.length_replicate]; omega),
      List.drop_replicate]
    norm_num
  have hslice : framePayload bits = false :: List.replicate (2 ^ 31 - 1) true := by
    unfold framePayload
    rw [hL, hdrop, show (2 : ℕ) ^ 31 = (2 ^ 31 - 1) + 1 from by norm_num,
      List.take_succ_cons, hpayload, List.take_replicate]
    norm_num
  have hmod : bitsToNat (bits.take 32) % 8 = 0 := by
    rw [hL, show (2 : ℕ) ^ 31 = 8 * 2 ^ 28 from by norm_num, Nat.mul_mod_right]
  have hout : decodeFrame bits =
      .ok (binary_to_bytes (false :: List.replicate (2 ^ 31 - 1) true)) := by
    unfold decodeFrame
    rw [if_neg (by omega), if_neg (by simpa using hmod), hslice]
  have houtlen : (binary_to_bytes (false :: List.replicate (2 ^ 31 - 1) true)).length =
      2 ^ 28 := by
    rw [binary_to_bytes_length, List.length_cons, List.length_replicate]
    norm_num
  have hrt : roundTrip (List.replicate (2 ^ 29) 255) =
      some (binary_to_bytes (false :: List.replicate (2 ^ 31 - 1) true)) := by
    unfold roundTrip encodePipeline
    rw [hbits_eq,
      show encode_rdft bits = some (encodeSamples bits) from by simp [encode_rdft, hne],
      Option.some_bind]
    unfold decodePipeline
    rw [decode_encode bits hne, Option.some_bind, hout]
    rfl
  rw [hrt]
  intro hcon
  have h2 : binary_to_bytes (false :: List.replicate (2 ^ 31 - 1) true) =
      List.replicate (2 ^ 29) 255 := Option.some.inj hcon
  have h3 := congrArg List.length h2
  rw [houtlen, List.length_replicate] at h3
  norm_num at h3

end AnonNum
